import Mathlib

/-!
Shallow embedding of the SmartPicks dashboard scripts.

JavaScript numbers are modelled as `JsNum`: NaN, the two infinities, or a
finite value represented exactly as a rational (`ℚ`).  JavaScript values
reaching the utilities are modelled as `JsVal` (undefined, null, number,
string); strings are lists of characters.  Fallible operations (property
access on `undefined`, `JSON.parse`) return `Except`.
-/

namespace SmartPicks

/-- A JavaScript string, modelled as its list of characters. -/
abbrev Str := List Char

/-- A JavaScript number: NaN, +Infinity, -Infinity, or a finite value
(modelled exactly as a rational). -/
inductive JsNum where
  | nan
  | inf
  | ninf
  | fin (q : ℚ)
deriving DecidableEq

/-- A JavaScript value as it reaches the dashboard utilities:
`undefined`, `null`, a number, or a string. -/
inductive JsVal where
  | undef
  | vnull
  | vnum (n : JsNum)
  | vstr (s : Str)
deriving DecidableEq

/-- Digits of a character list interpreted as a natural number
(auxiliary for the model of the platform `Number()` coercion). -/
def natOfDigits (s : Str) : ℕ :=
  s.foldl (fun a c => a * 10 + (c.toNat - '0'.toNat)) 0

/-- Parse a signed decimal literal, the fragment of JavaScript numeric-string
syntax exercised by this code base (optional sign, integer part, optional
fraction).  Anything else is not a numeric string here. -/
def strToNumCore (s : Str) : Option ℚ :=
  let signed : ℚ × Str :=
    match s with
    | '-' :: r => (-1, r)
    | '+' :: r => (1, r)
    | r => (1, r)
  let ip := signed.2.takeWhile Char.isDigit
  let rest := signed.2.dropWhile Char.isDigit
  match rest with
  | [] => if ip = [] then none else some (signed.1 * natOfDigits ip)
  | '.' :: fp =>
      if fp ≠ [] ∧ fp.all Char.isDigit then
        some (signed.1 * ((natOfDigits ip : ℚ) + natOfDigits fp / (10 : ℚ) ^ fp.length))
      else none
  | _ => none

/-- Model of the platform `Number()` coercion on the value shapes used by the
dashboard: `undefined → NaN`, `null → 0`, numbers unchanged, strings parsed
as decimal literals (after trimming spaces; empty string → 0, non-numeric
string → NaN). -/
def jsNumber : JsVal → JsNum
  | .undef => .nan
  | .vnull => .fin 0
  | .vnum n => n
  | .vstr s =>
      let t := ((s.dropWhile (· = ' ')).reverse.dropWhile (· = ' ')).reverse
      if t = [] then .fin 0
      else
        match strToNumCore t with
        | some q => .fin q
        | none => .nan

/-- The `toNumber` helper of the v2 frontend:
`const n = Number(v); return Number.isFinite(n) ? n : fallback;`. -/
def toNumber (v : JsVal) (fallback : ℚ := 0) : ℚ :=
  match jsNumber v with
  | .fin q => q
  | _ => fallback

/-- `americanToDecimal` (v2 frontend):
returns `null` for zero or non-finite odds, `1 + odds/100` for positive odds
and `1 + 100/|odds|` for negative odds. -/
def americanToDecimal : JsNum → Option ℚ
  | .fin q => if q = 0 then none else if q > 0 then some (1 + q / 100) else some (1 + 100 / |q|)
  | _ => none

/-- `impliedProbFromAmerican` (v2 frontend):
returns `0` for zero or non-finite odds, `100/(odds+100)` for positive odds
and `|odds|/(|odds|+100)` for negative odds. -/
def impliedProbFromAmerican : JsNum → ℚ
  | .fin q => if q = 0 then 0 else if q > 0 then 100 / (q + 100) else |q| / (|q| + 100)
  | _ => 0

/-- `impliedProbability` (confidence-meter script):
`const o = Number(odds); if (isNaN(o)) return null;` then the usual
formulas, with `o < 0` tested first and everything else (including zero and
`+Infinity`) taking the `100/(o+100)` branch.  On the infinities the IEEE
results are `∞/∞ = NaN` and `100/∞ = 0`. -/
def impliedProbability (odds : JsVal) : Option JsNum :=
  match jsNumber odds with
  | .nan => none
  | .ninf => some .nan
  | .inf => some (.fin 0)
  | .fin q => if q < 0 then some (.fin (|q| / (|q| + 100))) else some (.fin (100 / (q + 100)))

/-- JavaScript truthiness on the modelled values: `undefined`, `null`, `0`,
`NaN` and the empty string are falsy, all other values are truthy. -/
def truthy : JsVal → Bool
  | .undef => false
  | .vnull => false
  | .vnum (.fin q) => q ≠ 0
  | .vnum .nan => false
  | .vnum _ => true
  | .vstr s => s ≠ []

/-- IEEE multiplication on the modelled JavaScript numbers. -/
def JsNum.mul : JsNum → JsNum → JsNum
  | .nan, _ => .nan
  | _, .nan => .nan
  | .fin a, .fin b => .fin (a * b)
  | .inf, .fin b => if 0 < b then .inf else if b < 0 then .ninf else .nan
  | .ninf, .fin b => if 0 < b then .ninf else if b < 0 then .inf else .nan
  | .fin a, .inf => if 0 < a then .inf else if a < 0 then .ninf else .nan
  | .fin a, .ninf => if 0 < a then .ninf else if a < 0 then .inf else .nan
  | .inf, .inf => .inf
  | .inf, .ninf => .ninf
  | .ninf, .inf => .ninf
  | .ninf, .ninf => .inf

/-- Decimal digit characters of a natural number. -/
def natToDigits (n : ℕ) : Str := Nat.toDigits 10 n

/-- Fractional decimal digits of a rational in `[0,1)`, up to the given
number of places, trailing zeros dropped (enough places for every value the
dashboard displays). -/
def fracDigits : ℕ → ℚ → Str
  | 0, _ => []
  | n + 1, q =>
      if q = 0 then []
      else
        let d : ℤ := ⌊q * 10⌋
        Char.ofNat ('0'.toNat + d.toNat) :: fracDigits n (q * 10 - d)

/-- Decimal rendering of a rational (model of the platform number-to-string
conversion; the dashboard only renders values with short exact decimal
expansions). -/
def qToStr (q : ℚ) : Str :=
  let sgn : Str := if q < 0 then ['-'] else []
  let a := |q|
  let fd := fracDigits 17 (a - ⌊a⌋)
  sgn ++ natToDigits (⌊a⌋).toNat ++ (if fd = [] then [] else '.' :: fd)

/-- The platform number-to-string conversion on `JsNum`. -/
def numToStr : JsNum → Str
  | .nan => "NaN".toList
  | .inf => "Infinity".toList
  | .ninf => "-Infinity".toList
  | .fin q => qToStr q

/-- The platform string conversion used by template-literal interpolation. -/
def jsToString : JsVal → Str
  | .undef => "undefined".toList
  | .vnull => "null".toList
  | .vnum n => numToStr n
  | .vstr s => s

/-- `Number.prototype.toFixed` on the modelled numbers: `"NaN"` for NaN,
otherwise sign, then the magnitude rounded to `d` places (ties away from
zero on the magnitude, as specified for `toFixed`). -/
def toFixed (n : JsNum) (d : ℕ) : Str :=
  match n with
  | .nan => "NaN".toList
  | .inf => "Infinity".toList
  | .ninf => "-Infinity".toList
  | .fin q =>
      let sgn : Str := if q < 0 then ['-'] else []
      let scaled : ℕ := (⌊|q| * (10 : ℚ) ^ d + 1 / 2⌋).toNat
      let ds := natToDigits scaled
      let ds := if ds.length ≤ d then List.replicate (d + 1 - ds.length) '0' ++ ds else ds
      sgn ++ ds.take (ds.length - d) ++ (if d = 0 then [] else '.' :: ds.drop (ds.length - d))

/-- The em-dash placeholder string used by the formatters. -/
def emDash : Str := ['—']

/-- `formatAmericanOdds` (v2 frontend): the em-dash for non-finite input,
otherwise the number with a leading `+` when positive. -/
def formatAmericanOdds (price : JsVal) : Str :=
  match price with
  | .vnum (.fin q) => if 0 < q then '+' :: numToStr (.fin q) else numToStr (.fin q)
  | _ => emDash

/-- `formatPct` (v2 frontend): the em-dash for non-finite input, otherwise
the value times 100 fixed to one decimal with a trailing percent sign. -/
def formatPct (x : JsVal) : Str :=
  match x with
  | .vnum (.fin q) => toFixed (.fin (q * 100)) 1 ++ ['%']
  | _ => emDash

/-- `formatMoney` (v2 frontend): the em-dash for non-finite input, otherwise
`+$` or `-$` followed by the magnitude fixed to two decimals. -/
def formatMoney (x : JsVal) : Str :=
  match x with
  | .vnum (.fin q) =>
      if 0 ≤ q then '+' :: '$' :: toFixed (.fin q) 2
      else '-' :: '$' :: toFixed (.fin |q|) 2
  | _ => emDash

/-- `Math.round` on a finite value: floor of the value plus one half. -/
def jsRound (q : ℚ) : ℤ := ⌊q + 1 / 2⌋

/-- `computeConfidence` (v2 frontend): score and edge default to 0 when not
finite numbers; `sNorm = (score - 0.75)/0.1`, `eNorm = edge/0.05`,
`c = clamp((sNorm + eNorm)/2, 0, 1.5)`, result `round(1 + c*4)`. -/
def computeConfidence (score edge : JsVal) : ℤ :=
  let s : ℚ := match score with | .vnum (.fin q) => q | _ => 0
  let e : ℚ := match edge with | .vnum (.fin q) => q | _ => 0
  let sNorm := (s - 0.75) / 0.1
  let eNorm := e / 0.05
  let c := max 0 (min 1.5 ((sNorm + eNorm) / 2))
  jsRound (1 + c * 4)

/-- The derived numeric fields the v2 frontend's `enrichData` attaches to a
pick. -/
structure PickMetrics where
  decimal_odds : Option ℚ
  implied_prob : ℚ
  edge : Option ℚ
  ev_units : Option ℚ
  confidence : ℤ
deriving DecidableEq

/-- The per-pick body of `enrichData` (v2 frontend) restricted to the derived
numeric fields: odds are coerced with `toNumber`, decimal odds and implied
probability derived from them, and edge/EV computed only when
`winProb !== null && isFinite(dec) && dec > 1` — i.e. when
`win_probability` coerces to a finite number, is not the literal `null`
(for which the guard's ternary yields `null` because `isFinite(null)` is
true), and the decimal odds exist and exceed 1. -/
def enrichPick (score win_probability odds : JsVal) : PickMetrics :=
  let oddsNum : ℚ := toNumber odds
  let dec : Option ℚ := americanToDecimal (.fin oddsNum)
  let implied : ℚ := impliedProbFromAmerican (.fin oddsNum)
  let edgeEv : Option ℚ × Option ℚ :=
    match jsNumber win_probability, dec with
    | .fin w, some d =>
        if win_probability = .vnull then (none, none)
        else if 1 < d then (some (w - implied), some (w * (d - 1) - (1 - w)))
        else (none, none)
    | _, _ => (none, none)
  { decimal_odds := dec
    implied_prob := implied
    edge := edgeEv.1
    ev_units := edgeEv.2
    confidence :=
      computeConfidence score (match edgeEv.1 with | some e => .vnum (.fin e) | none => .vnull) }

/-- Decimal digit characters of an integer. -/
def intToStr (i : ℤ) : Str :=
  if i < 0 then '-' :: natToDigits i.natAbs else natToDigits i.natAbs

/-- Calling `toUpperCase` on a value: defined on strings, a `TypeError`
on every other value. -/
def jsToUpperCase : JsVal → Except String Str
  | .vstr s => .ok (s.map Char.toUpper)
  | _ => .error "TypeError: toUpperCase is not a function"

/-- Calling `toFixed` on a value: defined on numbers, a `TypeError`
on every other value. -/
def jsToFixed (v : JsVal) (d : ℕ) : Except String Str :=
  match v with
  | .vnum n => .ok (toFixed n d)
  | _ => .error "TypeError: toFixed is not a function"

/-- Abstract model of `new Date(x).getTime()`: numbers are epoch
milliseconds; a string parses when it opens with a four-digit year (the
ISO-ish timestamps of the feed); everything else is an invalid date. -/
def parseDateMs : JsVal → Option ℤ
  | .vnum (.fin q) => some ⌊q⌋
  | .vstr s => if (s.takeWhile Char.isDigit).length = 4 then some 0 else none
  | _ => none

/-- Abstract model of `Date.prototype.toLocaleString` (the exact text is a
platform locale concern; no claim inspects it). -/
def dateLocaleString (ms : ℤ) : Str :=
  "Date(".toList ++ intToStr ms ++ [')']

/-- `formatDateTime` (dashboard script): em-dash for a falsy input; an
unparseable date echoes the input back; otherwise the locale rendering. -/
def formatDateTime (dt : JsVal) : Str :=
  if truthy dt = false then emDash
  else
    match parseDateMs dt with
    | some ms => dateLocaleString ms
    | none => jsToString dt

/-- `formatSport` (dashboard script): empty string for a falsy input,
otherwise `s.replace(/_/g, " ").toUpperCase()` — a `TypeError` when the
truthy input is not a string. -/
def formatSport (s : JsVal) : Except String Str :=
  if truthy s = false then .ok []
  else
    match s with
    | .vstr l => .ok ((l.map (fun c => if c = '_' then ' ' else c)).map Char.toUpper)
    | _ => .error "TypeError: replace is not a function"

/-- A record of the `top10` feed as read by `populateTopPicks`; every field
arrives from JSON and may be absent (`undef`).  The `match` field is named
`matchLabel` because `match` is reserved in Lean. -/
structure TopPick where
  sport : JsVal
  event_time : JsVal
  matchLabel : JsVal
  team : JsVal
  market : JsVal
  price : JsVal
  prob : JsVal
  confidence : JsVal
  recommended_stake : JsVal
  why : JsVal
deriving DecidableEq

/-- The card body built for one pick by `populateTopPicks` (dashboard
script), with the interpolated expressions evaluated in template order;
the first `TypeError` aborts the renderer, exactly as in the source
(`pick.market.toUpperCase()` and `pick.recommended_stake.toFixed(2)` are
called on the raw field). -/
def renderPickCard (p : TopPick) : Except String Str := do
  let confidencePct : Str :=
    if p.confidence ≠ .vnull ∧ p.confidence ≠ .undef then
      toFixed (JsNum.mul (jsNumber p.confidence) (.fin 100)) 1 ++ ['%']
    else emDash
  let sportTxt ← formatSport p.sport
  let timeTxt := formatDateTime p.event_time
  let marketUpper ← jsToUpperCase p.market
  let probTxt := toFixed (JsNum.mul (jsNumber p.prob) (.fin 100)) 1
  let stakeTxt ← jsToFixed p.recommended_stake 2
  let whyTxt : Str := if truthy p.why then jsToString p.why else []
  .ok (sportTxt ++ timeTxt
    ++ jsToString p.matchLabel
    ++ "Pick: ".toList ++ jsToString p.team ++ " (".toList ++ marketUpper ++ ")".toList
    ++ "Price: ".toList ++ jsToString p.price
    ++ "Model Prob: ".toList ++ probTxt ++ "%".toList
    ++ "Confidence: ".toList ++ confidencePct
    ++ "Stake: ".toList ++ stakeTxt ++ " units".toList
    ++ whyTxt)

/-- `populateTopPicks` (dashboard script): the explicit placeholder for an
empty list, otherwise one card per pick, the first renderer exception
propagating. -/
def populateTopPicks (topPicks : List TopPick) : Except String (List Str) :=
  if topPicks = [] then .ok ["No top picks available.".toList]
  else topPicks.mapM renderPickCard

/-- `HISTORY_PER_PAGE` (dashboard script). -/
def HISTORY_PER_PAGE : ℕ := 10

/-- The rows shown by `renderHistoryPage` for a 1-based page:
`slice((page-1)*HISTORY_PER_PAGE, page*HISTORY_PER_PAGE)`. -/
def historyPageRows {α : Type} (rows : List α) (page : ℕ) : List α :=
  (rows.drop ((page - 1) * HISTORY_PER_PAGE)).take HISTORY_PER_PAGE

/-- `Math.ceil(length / HISTORY_PER_PAGE)` from `renderHistoryPagination`. -/
def historyTotalPages (len : ℕ) : ℕ :=
  (len + HISTORY_PER_PAGE - 1) / HISTORY_PER_PAGE

/-- The state of the pagination controls built by
`renderHistoryPagination`. -/
structure PaginationView where
  prevDisabled : Bool
  nextDisabled : Bool
  label : Str
deriving DecidableEq

/-- `renderHistoryPagination` (dashboard script): nothing when the filtered
history is empty; otherwise `Prev` disabled on page 1, `Next` disabled on
the last page, and a `Page X of Y` label. -/
def renderHistoryPagination (len page : ℕ) : Option PaginationView :=
  if len = 0 then none
  else
    some
      { prevDisabled := page == 1
        nextDisabled := page == historyTotalPages len
        label := "Page ".toList ++ natToDigits page ++ " of ".toList
          ++ natToDigits (historyTotalPages len) }

/-- A history row as read by the patched frontend's history tab, restricted
to the fields the bet-identity and override logic touches.  The `match`
field is named `matchLabel` because `match` is reserved in Lean. -/
structure HistBet where
  bet_id : Str
  sport : Str
  matchLabel : Str
  team : Str
  market : Str
  event_time : Str
  result : Str
deriving DecidableEq

/-- Membership in the character class `[A-Za-z0-9_]` of the sanitizing
regular expression in `makeBetId`. -/
def isWordChar (c : Char) : Bool := c.isAlpha || c.isDigit || c == '_'

/-- One character of `raw.replace(/[^a-zA-Z0-9_]/g, "_")`. -/
def sanitizeChar (c : Char) : Char := if isWordChar c then c else '_'

/-- `makeBetId` (patched frontend): the five fields joined by underscores,
every character outside `[A-Za-z0-9_]` replaced by `_`. -/
def makeBetId (b : HistBet) : Str :=
  (b.sport ++ '_' :: b.matchLabel ++ '_' :: b.team ++ '_' :: b.market
    ++ '_' :: b.event_time).map sanitizeChar

/-- The identifier used for a history row:
`bet.bet_id || makeBetId(bet)` (an absent or empty upstream id falls back
to the derived one). -/
def betIdOf (b : HistBet) : Str :=
  if b.bet_id = [] then makeBetId b else b.bet_id

/-- The manual-override map: a JavaScript object used as a string-to-string
dictionary, modelled as an insertion-ordered association list with unique
keys. -/
abbrev OverrideMap := List (Str × Str)

/-- Property assignment `obj[k] = v` on the modelled object: replaces the
value of an existing key in place, otherwise appends the new key. -/
def objSet : OverrideMap → Str → Str → OverrideMap
  | [], k, v => [(k, v)]
  | (k', v') :: rest, k, v =>
      if k' = k then (k, v) :: rest else (k', v') :: objSet rest k v

/-- Property read `obj[k]` on the modelled object (`none` = `undefined`). -/
def objGet : OverrideMap → Str → Option Str
  | [], _ => none
  | (k', v') :: rest, k => if k' = k then some v' else objGet rest k

/-- Inside a JSON string literal the serializer never needs escaping for
these characters; the model restricts JSON strings to them. -/
def safeChar (c : Char) : Bool := c ≠ '"' && c ≠ '\\'

/-- A string the modelled JSON layer can carry verbatim. -/
def safeStr (s : Str) : Bool := s.all safeChar

/-- Every key and value of the map is carried verbatim by the modelled
JSON layer. -/
def mapWF (m : OverrideMap) : Bool :=
  m.all (fun e => safeStr e.1 && safeStr e.2)

/-- The keys of the map are pairwise distinct. -/
def keysNodup : OverrideMap → Bool
  | [] => true
  | (k, _) :: rest => !(rest.any (fun e => e.1 = k)) && keysNodup rest

/-- `JSON.stringify` of one `"key":"value"` member. -/
def entryStr (k v : Str) : Str :=
  '"' :: k ++ '"' :: ':' :: '"' :: v ++ ['"']

/-- `JSON.stringify` of the comma-separated members. -/
def entriesStr : OverrideMap → Str
  | [] => []
  | [(k, v)] => entryStr k v
  | (k, v) :: rest => entryStr k v ++ ',' :: entriesStr rest

/-- Model of `JSON.stringify` on a string-to-string object (the compact
form the store writes). -/
def jsonStringifyOverrides (m : OverrideMap) : Str :=
  '{' :: entriesStr m ++ ['}']

/-- Reads a JSON string body up to its closing quote (escape sequences are
outside the modelled fragment and fail, as any string the model serializes
contains none). -/
def parseJString : Str → Option (Str × Str)
  | [] => none
  | c :: rest =>
      if c = '"' then some ([], rest)
      else if c = '\\' then none
      else
        match parseJString rest with
        | some (s, r) => some (c :: s, r)
        | none => none

/-- Expects the `:"` separating a member's key from its value. -/
def expectColonQuote (s : Str) : Option Str :=
  match s with
  | c1 :: c2 :: rest => if c1 = ':' then if c2 = '"' then some rest else none else none
  | _ => none

/-- Parses one `"key":"value"` member. -/
def parseMember (s : Str) : Option ((Str × Str) × Str) :=
  match s with
  | [] => none
  | c :: rest =>
      if c = '"' then
        match parseJString rest with
        | none => none
        | some (k, rest1) =>
            match expectColonQuote rest1 with
            | none => none
            | some rest2 =>
                match parseJString rest2 with
                | none => none
                | some (v, rest3) => some ((k, v), rest3)
      else none

/-- Parses the comma-separated members, later duplicates overwriting
earlier ones as `JSON.parse` does; the fuel bounds the recursion and is
ample because every member consumes at least five characters. -/
def parseMembers : ℕ → OverrideMap → Str → Option (OverrideMap × Str)
  | 0, _, _ => none
  | fuel + 1, acc, s =>
      match parseMember s with
      | none => none
      | some ((k, v), rest) =>
          match rest with
          | [] => some (objSet acc k v, [])
          | c :: rest2 =>
              if c = ',' then parseMembers fuel (objSet acc k v) rest2
              else some (objSet acc k v, c :: rest2)

/-- Model of `JSON.parse` restricted to the documents the override store
deals in: a single object whose values are strings.  Anything else is the
`SyntaxError` that `JSON.parse` throws. -/
def jsonParseOverrides (s : Str) : Except String OverrideMap :=
  match s with
  | [] => .error "SyntaxError: Unexpected end of JSON input"
  | c :: rest =>
      if c = '{' then
        match rest with
        | [] => .error "SyntaxError: Unexpected end of JSON input"
        | c2 :: rest2 =>
            if c2 = '}' then
              if rest2 = [] then .ok []
              else .error "SyntaxError: Unexpected token in JSON"
            else
              match parseMembers rest.length [] rest with
              | some (m, r) =>
                  if r = ['}'] then .ok m
                  else .error "SyntaxError: Unexpected token in JSON"
              | none => .error "SyntaxError: Unexpected token in JSON"
      else .error "SyntaxError: Unexpected token in JSON"

/-- The `manualOverrides` slot of `localStorage` (`none` = no value
stored). -/
abbrev Storage := Option Str

/-- `loadManualOverrides` (patched frontend):
`const data = localStorage.getItem("manualOverrides"); return data ? JSON.parse(data) : {};`
— the empty object for a missing or empty (falsy) stored value, otherwise
the result of `JSON.parse`, whose exception propagates (there is no
try/catch in the source). -/
def loadManualOverrides (storage : Storage) : Except String OverrideMap :=
  match storage with
  | none => .ok []
  | some s => if s = [] then .ok [] else jsonParseOverrides s

/-- `saveManualOverrides` (patched frontend): stores
`JSON.stringify(overrides)` under the `manualOverrides` key. -/
def saveManualOverrides (m : OverrideMap) : Storage :=
  some (jsonStringifyOverrides m)

/-- `setManual` (patched frontend): loads the override map, assigns
`overrides[betId] = result`, and saves it back (the row's DOM update is the
display modelled by `renderHistoryRowResult`). -/
def setManual (betId result : Str) (storage : Storage) : Except String Storage := do
  let overrides ← loadManualOverrides storage
  .ok (saveManualOverrides (objSet overrides betId result))

/-- The result cell rendered for one history row by `renderHistoryTab`:
`overrides[betId] || bet.result` — a present, truthy override shadows the
engine-reported result. -/
def renderHistoryRowResult (b : HistBet) (overrides : OverrideMap) : Str :=
  match objGet overrides (betIdOf b) with
  | some v => if v = [] then b.result else v
  | none => b.result

/-- A `top10` record whose `market` (and several optional fields) are
absent, as when the feed omits them. -/
def missingMarketPick : TopPick :=
  { sport := .vstr ("NBA".toList)
    event_time := .undef
    matchLabel := .vstr ("Lakers vs Suns".toList)
    team := .vstr ("Lakers".toList)
    market := .undef
    price := .vnum (.fin (-110))
    prob := .vnum (.fin 0.6)
    confidence := .vnull
    recommended_stake := .vnum (.fin 1)
    why := .undef }

/-- The acceptance-example bet of the specification: no upstream
identifier, engine result `WIN`. -/
def exampleBet : HistBet :=
  { bet_id := []
    sport := "soccer_epl".toList
    matchLabel := "Man City @ Arsenal".toList
    team := "Arsenal".toList
    market := "h2h".toList
    event_time := "2024-05-01T15:00:00Z".toList
    result := "WIN".toList }

/-! Theorems.  Each claim of the specification is settled by one named
theorem below; auxiliary lemmas carry their own names. -/

/-- Claim C1, counterexample to the stated relation: at American odds
`+200` the code's decimal odds are `3`, while `1 + 1/impliedProbability`
is `4` — the claimed identity `decimalOdds = 1 + 1/impliedProbability`
fails (the two sides differ by exactly 1, far beyond any floating-point
tolerance). -/
theorem odds_round_trip_claim_false :
    americanToDecimal (.fin 200) = some 3 ∧
    1 + 1 / impliedProbFromAmerican (.fin 200) = (4 : ℚ) ∧
    (3 : ℚ) ≠ 4 :=
  ⟨by norm_num [americanToDecimal], by norm_num [impliedProbFromAmerican], by norm_num⟩

/-- Claim C1 (amended): for every finite nonzero American odds value the
implied probability lies strictly between 0 and 1 and the decimal odds
equal `1 / impliedProbability` exactly (not `1 + 1/impliedProbability`). -/
theorem odds_prob_round_trip (q : ℚ) (h : q ≠ 0) :
    0 < impliedProbFromAmerican (.fin q) ∧
    impliedProbFromAmerican (.fin q) < 1 ∧
    americanToDecimal (.fin q) = some (1 / impliedProbFromAmerican (.fin q)) := by
  by_cases hpos : q > 0
  · have h100 : (0 : ℚ) < q + 100 := by linarith
    simp only [impliedProbFromAmerican, americanToDecimal, if_neg h, if_pos hpos]
    refine ⟨by positivity, ?_, ?_⟩
    · rw [div_lt_one h100]; linarith
    · rw [Option.some.injEq, one_div_div]
      field_simp
      ring
  · have hneg : q < 0 := lt_of_le_of_ne (not_lt.mp hpos) h
    have habs : (0 : ℚ) < |q| := abs_pos.mpr h
    have h100 : (0 : ℚ) < |q| + 100 := by linarith
    simp only [impliedProbFromAmerican, americanToDecimal, if_neg h, if_neg hpos]
    refine ⟨by positivity, ?_, ?_⟩
    · rw [div_lt_one h100]; linarith
    · rw [Option.some.injEq, one_div_div]
      field_simp

/-- Claim C1, witness: the round-trip theorem applied at `-150`, together
with the acceptance values — implied probability `0.6` at `-150`,
`1/3` at `+200`, decimal odds `1 + 100/150` at `-150` and `3` at `+200`. -/
theorem odds_prob_round_trip_witness :
    (0 < impliedProbFromAmerican (.fin (-150)) ∧
      impliedProbFromAmerican (.fin (-150)) < 1 ∧
      americanToDecimal (.fin (-150)) = some (1 / impliedProbFromAmerican (.fin (-150)))) ∧
    impliedProbFromAmerican (.fin (-150)) = 0.6 ∧
    americanToDecimal (.fin (-150)) = some (1 + 100 / 150) ∧
    impliedProbFromAmerican (.fin 200) = 1 / 3 ∧
    americanToDecimal (.fin 200) = some 3 :=
  ⟨odds_prob_round_trip (-150) (by norm_num),
   by norm_num [impliedProbFromAmerican],
   by norm_num [americanToDecimal],
   by norm_num [impliedProbFromAmerican],
   by norm_num [americanToDecimal]⟩

/-- Claim C3: the confidence heuristic follows the stated formula and gives
5 at score `0.85` / edge `0.05`, but because the clamp ceiling is `1.5`
(so `1 + c*4` reaches 7) the asserted range `[1,5]` is wrong: at score
`0.95` / edge `0.1` the code returns 7, contradicting the claim and the
code's own `1–5` comments. -/
theorem computeConfidence_range_bug :
    computeConfidence (.vnum (.fin 0.85)) (.vnum (.fin 0.05)) = 5 ∧
    computeConfidence (.vnum (.fin 0.95)) (.vnum (.fin 0.1)) = 7 ∧
    ¬(computeConfidence (.vnum (.fin 0.95)) (.vnum (.fin 0.1)) ≤ 5) := by
  have h1 : computeConfidence (.vnum (.fin 0.85)) (.vnum (.fin 0.05)) =
      ⌊(1 + (max 0 (min 1.5 (((0.85 - 0.75) / 0.1 + 0.05 / 0.05) / 2))) * 4 : ℚ) + 1 / 2⌋ := rfl
  have h2 : computeConfidence (.vnum (.fin 0.95)) (.vnum (.fin 0.1)) =
      ⌊(1 + (max 0 (min 1.5 (((0.95 - 0.75) / 0.1 + 0.1 / 0.05) / 2))) * 4 : ℚ) + 1 / 2⌋ := rfl
  have e1 : (((0.85 : ℚ) - 0.75) / 0.1 + 0.05 / 0.05) / 2 = 1 := by norm_num
  have e2 : (((0.95 : ℚ) - 0.75) / 0.1 + 0.1 / 0.05) / 2 = 2 := by norm_num
  have m1 : min (1.5 : ℚ) 1 = 1 := by rw [min_eq_right]; norm_num
  have m2 : min (1.5 : ℚ) 2 = 1.5 := by rw [min_eq_left]; norm_num
  have x1 : max (0 : ℚ) 1 = 1 := by rw [max_eq_right]; norm_num
  have x2 : max (0 : ℚ) 1.5 = 1.5 := by rw [max_eq_right]; norm_num
  have g1 : computeConfidence (.vnum (.fin 0.85)) (.vnum (.fin 0.05)) = 5 := by
    rw [h1, e1, m1, x1, show ((1 : ℚ) + 1 * 4) + 1 / 2 = 11 / 2 by norm_num]
    rw [Int.floor_eq_iff]
    norm_num
  have g2 : computeConfidence (.vnum (.fin 0.95)) (.vnum (.fin 0.1)) = 7 := by
    rw [h2, e2, m2, x2, show ((1 : ℚ) + 1.5 * 4) + 1 / 2 = 15 / 2 by norm_num]
    rw [Int.floor_eq_iff]
    norm_num
  exact ⟨g1, g2, by rw [g2]; norm_num⟩

/-- Claim C4, counterexample: the confidence-meter variant
`impliedProbability` returns `1` (not `0`) at odds `0`, and `null`
(not `0`) on NaN input. -/
theorem impliedProbability_zero_claim_false :
    impliedProbability (.vnum (.fin 0)) = some (.fin 1) ∧
    JsNum.fin 1 ≠ JsNum.fin 0 ∧
    impliedProbability (.vnum .nan) ≠ some (.fin 0) := by
  refine ⟨by norm_num [impliedProbability, jsNumber], by simp, by simp [impliedProbability, jsNumber]⟩

/-- Claim C4 (amended): `impliedProbFromAmerican` (v2 frontend) behaves as
claimed — `100/(odds+100)` for positive, `|odds|/(|odds|+100)` for
negative, `0` for zero and every non-finite input; the confidence-meter
variant `impliedProbability` instead returns `null` on NaN, takes the
`100/(odds+100)` branch for all non-negative odds (hence `1` at zero), and
on the infinities follows IEEE arithmetic. -/
theorem implied_prob_spec :
    (∀ q : ℚ, 0 < q → impliedProbFromAmerican (.fin q) = 100 / (q + 100)) ∧
    (∀ q : ℚ, q < 0 → impliedProbFromAmerican (.fin q) = |q| / (|q| + 100)) ∧
    impliedProbFromAmerican (.fin 0) = 0 ∧
    impliedProbFromAmerican .nan = 0 ∧
    impliedProbFromAmerican .inf = 0 ∧
    impliedProbFromAmerican .ninf = 0 ∧
    (∀ q : ℚ, 0 ≤ q → impliedProbability (.vnum (.fin q)) = some (.fin (100 / (q + 100)))) ∧
    (∀ q : ℚ, q < 0 → impliedProbability (.vnum (.fin q)) = some (.fin (|q| / (|q| + 100)))) ∧
    impliedProbability (.vnum .nan) = none ∧
    impliedProbability (.vnum .inf) = some (.fin 0) ∧
    impliedProbability (.vnum .ninf) = some .nan := by
  refine ⟨?_, ?_, rfl, rfl, rfl, rfl, ?_, ?_, rfl, rfl, rfl⟩
  · intro q hq
    simp [impliedProbFromAmerican, hq, ne_of_gt hq]
  · intro q hq
    simp [impliedProbFromAmerican, hq, ne_of_lt hq, not_lt.mpr hq.le]
  · intro q hq
    simp [impliedProbability, jsNumber, not_lt.mpr hq]
  · intro q hq
    simp [impliedProbability, jsNumber, hq]

/-- Claim C4, witness: the amended characterization applied at `+200`,
`-150` (both functions) and the non-finite inputs. -/
theorem implied_prob_spec_witness :
    impliedProbFromAmerican (.fin 200) = 100 / (200 + 100) ∧
    impliedProbFromAmerican (.fin (-150)) = |(-150 : ℚ)| / (|(-150 : ℚ)| + 100) ∧
    impliedProbability (.vnum (.fin 200)) = some (.fin (100 / (200 + 100))) ∧
    impliedProbability (.vnum (.fin (-150))) =
      some (.fin (|(-150 : ℚ)| / (|(-150 : ℚ)| + 100))) :=
  ⟨implied_prob_spec.1 200 (by norm_num),
   implied_prob_spec.2.1 (-150) (by norm_num),
   implied_prob_spec.2.2.2.2.2.2.1 200 (by norm_num),
   implied_prob_spec.2.2.2.2.2.2.2.1 (-150) (by norm_num)⟩

/-- Characterization of the EV field attached by `enrichData`: it is
present exactly when the win probability coerces to a finite number, is
not the literal `null`, and the decimal odds exist and exceed 1 — and then
equals `winProb * (dec - 1) - (1 - winProb)`. -/
theorem enrichPick_ev_units_iff (score wp odds : JsVal) (e : ℚ) :
    (enrichPick score wp odds).ev_units = some e ↔
      ∃ w d, jsNumber wp = .fin w ∧ wp ≠ .vnull ∧
        americanToDecimal (.fin (toNumber odds)) = some d ∧ 1 < d ∧
        e = w * (d - 1) - (1 - w) := by
  simp only [enrichPick]
  rcases hw : jsNumber wp with _ | _ | _ | w <;>
    rcases hd : americanToDecimal (.fin (toNumber odds)) with _ | d <;>
      simp [hw, hd]
  · by_cases hnull : wp = .vnull
    · simp [hnull]
    · by_cases hlt : 1 < d
      · simp [hnull, hlt, eq_comm]
      · simp [hnull, hlt]

/-- Claim C2: the expected value in stake units equals
`winProb * (decimalOdds - 1) - (1 - winProb)` and is attached exactly when
a finite win probability and decimal odds greater than 1 are both
available (otherwise the field stays the `null` marker); at win
probability `0.55` and decimal odds `2.0` (American `+100`) it is exactly
`0.10`. -/
theorem ev_units_spec :
    (∀ score wp odds : JsVal, ∀ e : ℚ,
      (enrichPick score wp odds).ev_units = some e ↔
        ∃ w d, jsNumber wp = .fin w ∧ wp ≠ .vnull ∧
          americanToDecimal (.fin (toNumber odds)) = some d ∧ 1 < d ∧
          e = w * (d - 1) - (1 - w)) ∧
    (enrichPick .undef (.vnum (.fin 0.55)) (.vnum (.fin 100))).ev_units = some 0.10 :=
  ⟨enrichPick_ev_units_iff,
   (enrichPick_ev_units_iff .undef (.vnum (.fin 0.55)) (.vnum (.fin 100)) 0.10).mpr
     ⟨0.55, 2, rfl, by simp, by norm_num [toNumber, jsNumber, americanToDecimal],
      by norm_num, by norm_num⟩⟩

/-- Claim C2, witness: the characterization applied at win probability
`0.6` and American odds `-200` (decimal `1.5`). -/
theorem ev_units_spec_witness :
    (enrichPick .undef (.vnum (.fin 0.6)) (.vnum (.fin (-200)))).ev_units =
      some (0.6 * (1.5 - 1) - (1 - 0.6)) :=
  (ev_units_spec.1 .undef (.vnum (.fin 0.6)) (.vnum (.fin (-200))) _).mpr
    ⟨0.6, 1.5, rfl, by simp, by norm_num [toNumber, jsNumber, americanToDecimal],
     by norm_num, rfl⟩

/-- Sanitizing a character always lands in `[A-Za-z0-9_]`. -/
theorem isWordChar_sanitizeChar (c : Char) : isWordChar (sanitizeChar c) = true := by
  unfold sanitizeChar
  by_cases h : isWordChar c
  · simp [h]
  · simp [h]
    decide

/-- Every character of a derived bet identifier is in `[A-Za-z0-9_]`. -/
theorem makeBetId_sanitized (b : HistBet) : (makeBetId b).all isWordChar = true := by
  simp only [makeBetId, List.all_map]
  rw [List.all_eq_true]
  intro c _
  exact isWordChar_sanitizeChar c

/-- Claim C7: the bet identifier is a deterministic function of the five
fields and its output never contains a character outside `[A-Za-z0-9_]`. -/
theorem makeBetId_deterministic_and_sanitized (b : HistBet) :
    makeBetId b = makeBetId b ∧ (makeBetId b).all isWordChar = true :=
  ⟨rfl, makeBetId_sanitized b⟩

/-- Claim C7, witness: the identifier theorem at the acceptance example
bet (`soccer_epl`, `Man City @ Arsenal`, `Arsenal`, `h2h`,
`2024-05-01T15:00:00Z`). -/
theorem makeBetId_witness :
    makeBetId exampleBet = makeBetId exampleBet ∧
    (makeBetId exampleBet).all isWordChar = true :=
  makeBetId_deterministic_and_sanitized exampleBet

/-- Claim C9, counterexample: the page size is 10, not 15 — page 1 of a
23-row history shows 10 rows and page 2 shows rows 11–20. -/
theorem history_page_size_claim_false :
    HISTORY_PER_PAGE = 10 ∧ (10 : ℕ) ≠ 15 ∧
    (historyPageRows (List.range 23) 1).length = 10 ∧
    historyPageRows (List.range 23) 2 = [10, 11, 12, 13, 14, 15, 16, 17, 18, 19] :=
  ⟨rfl, by norm_num, by decide, by decide⟩

/-- Claim C9 (amended): pagination uses a fixed page size of 10; for every
non-empty history the previous control is disabled exactly on page 1, the
next control exactly on the last page, a `Page X of Y` label is shown, and
page `p` holds the rows at indices `(p-1)*10 + i`. -/
theorem history_pagination_spec {α : Type} (l : List α) (page : ℕ) (hl : l ≠ []) :
    ∃ v, renderHistoryPagination l.length page = some v ∧
      (v.prevDisabled = true ↔ page = 1) ∧
      (v.nextDisabled = true ↔ page = historyTotalPages l.length) ∧
      ∀ i, i < HISTORY_PER_PAGE →
        (historyPageRows l page)[i]? = l[(page - 1) * HISTORY_PER_PAGE + i]? := by
  have hlen : l.length ≠ 0 := by simpa using hl
  unfold renderHistoryPagination
  rw [if_neg hlen]
  refine ⟨_, rfl, ?_, ?_, ?_⟩
  · simp
  · simp
  · intro i hi
    unfold historyPageRows
    rw [List.getElem?_take_of_lt hi, List.getElem?_drop]

/-- Claim C9, witness: the pagination theorem on a 23-row history at
page 2. -/
theorem history_pagination_spec_witness :
    ∃ v, renderHistoryPagination (List.range 23).length 2 = some v ∧
      (v.prevDisabled = true ↔ 2 = 1) ∧
      (v.nextDisabled = true ↔ 2 = historyTotalPages (List.range 23).length) ∧
      ∀ i, i < HISTORY_PER_PAGE →
        (historyPageRows (List.range 23) 2)[i]? =
          (List.range 23)[(2 - 1) * HISTORY_PER_PAGE + i]? :=
  history_pagination_spec (List.range 23) 2 (by decide)

/-- Assigning to a key already at the head of the object replaces its
value in place. -/
theorem objSet_cons_hit (rest : OverrideMap) (k v k' v' : Str) (h : k' = k) :
    objSet ((k', v') :: rest) k v = (k, v) :: rest := by
  simp [objSet, h]

/-- Assigning to a key that differs from the head leaves the head and
recurses. -/
theorem objSet_cons_miss (rest : OverrideMap) (k v k' v' : Str) (h : ¬ k' = k) :
    objSet ((k', v') :: rest) k v = (k', v') :: objSet rest k v := by
  simp [objSet, h]

/-- Reading a key back right after assigning it yields the assigned
value. -/
theorem objGet_objSet_self (m : OverrideMap) (k v : Str) :
    objGet (objSet m k v) k = some v := by
  induction m with
  | nil => simp [objSet, objGet]
  | cons e rest ih =>
      rcases e with ⟨k', v'⟩
      by_cases h : k' = k
      · rw [objSet_cons_hit rest k v k' v' h]
        simp [objGet]
      · rw [objSet_cons_miss rest k v k' v' h]
        simp [objGet, h, ih]

/-- Assigning one key leaves every other key's value unchanged. -/
theorem objGet_objSet_ne (m : OverrideMap) (k v j : Str) (h : j ≠ k) :
    objGet (objSet m k v) j = objGet m j := by
  induction m with
  | nil => simp [objSet, objGet, Ne.symm h]
  | cons e rest ih =>
      rcases e with ⟨k', v'⟩
      by_cases h2 : k' = k
      · rw [objSet_cons_hit rest k v k' v' h2]
        simp [objGet, Ne.symm h, h2]
      · rw [objSet_cons_miss rest k v k' v' h2]
        by_cases h3 : k' = j
        · simp [objGet, h3]
        · simp [objGet, h3, ih]

/-- The key set after an assignment is the old key set plus the assigned
key. -/
theorem objSet_any_key (m : OverrideMap) (k v j : Str) :
    (objSet m k v).any (fun e => e.1 = j) = true ↔
      (m.any (fun e => e.1 = j) = true ∨ k = j) := by
  induction m with
  | nil => simp [objSet]
  | cons e rest ih =>
      rcases e with ⟨k', v'⟩
      by_cases h : k' = k
      · rw [objSet_cons_hit rest k v k' v' h, h]
        simp only [List.any_cons, Bool.or_eq_true, decide_eq_true_eq]
        tauto
      · rw [objSet_cons_miss rest k v k' v' h]
        simp only [List.any_cons, Bool.or_eq_true, decide_eq_true_eq] at ih ⊢
        rw [ih]
        tauto

/-- Assignment preserves key uniqueness. -/
theorem keysNodup_objSet (m : OverrideMap) (k v : Str) (hnd : keysNodup m = true) :
    keysNodup (objSet m k v) = true := by
  induction m with
  | nil => simp [objSet, keysNodup]
  | cons e rest ih =>
      rcases e with ⟨k', v'⟩
      simp only [keysNodup, Bool.and_eq_true, Bool.not_eq_true'] at hnd
      by_cases h : k' = k
      · rw [objSet_cons_hit rest k v k' v' h]
        simp only [keysNodup, Bool.and_eq_true, Bool.not_eq_true']
        rw [← h]
        exact ⟨hnd.1, hnd.2⟩
      · rw [objSet_cons_miss rest k v k' v' h]
        simp only [keysNodup, Bool.and_eq_true, Bool.not_eq_true']
        refine ⟨?_, ih hnd.2⟩
        cases hval : (objSet rest k v).any (fun e => e.1 = k') with
        | false => rfl
        | true =>
            rcases (objSet_any_key rest k v k').mp hval with hc | hc
            · rw [hnd.1] at hc
              exact absurd hc (by simp)
            · exact absurd hc (Ne.symm h)

/-- Assignment of a safe key and value preserves map safety. -/
theorem mapWF_objSet (m : OverrideMap) (k v : Str) (hm : mapWF m = true)
    (hk : safeStr k = true) (hv : safeStr v = true) : mapWF (objSet m k v) = true := by
  induction m with
  | nil => simp [objSet, mapWF, hk, hv]
  | cons e rest ih =>
      rcases e with ⟨k', v'⟩
      simp only [mapWF, List.all_cons, Bool.and_eq_true] at hm
      by_cases h : k' = k
      · rw [objSet_cons_hit rest k v k' v' h]
        simp only [mapWF, List.all_cons, Bool.and_eq_true]
        exact ⟨⟨hk, hv⟩, hm.2⟩
      · rw [objSet_cons_miss rest k v k' v' h]
        simp only [mapWF, List.all_cons, Bool.and_eq_true]
        exact ⟨hm.1, ih hm.2⟩

/-- Reading a string body consumes exactly the safe characters up to the
closing quote. -/
theorem parseJString_append (k r : Str) (hk : safeStr k = true) :
    parseJString (k ++ '"' :: r) = some (k, r) := by
  induction k with
  | nil => simp [parseJString]
  | cons c k ih =>
      simp only [safeStr, List.all_cons, Bool.and_eq_true] at hk
      have hc := hk.1
      simp only [safeChar, Bool.and_eq_true, decide_eq_true_eq] at hc
      simp only [List.cons_append, parseJString, if_neg hc.1, if_neg hc.2, List.append_eq]
      rw [ih hk.2]

/-- A successfully parsed string body is safe: the scanner stops at a
quote and rejects a backslash. -/
theorem parseJString_safe (s : Str) : ∀ (k r : Str), parseJString s = some (k, r) →
    safeStr k = true := by
  induction s with
  | nil => intro k r h; simp [parseJString] at h
  | cons c rest ih =>
      intro k r h
      simp only [parseJString] at h
      by_cases h1 : c = '"'
      · rw [if_pos h1] at h
        simp only [Option.some.injEq, Prod.mk.injEq] at h
        rw [← h.1]
        rfl
      · rw [if_neg h1] at h
        by_cases h2 : c = '\\'
        · rw [if_pos h2] at h
          simp at h
        · rw [if_neg h2] at h
          cases hp : parseJString rest with
          | none => rw [hp] at h; simp at h
          | some pr =>
              rcases pr with ⟨s', r'⟩
              rw [hp] at h
              simp only [Option.some.injEq, Prod.mk.injEq] at h
              rw [← h.1]
              simp only [safeStr, List.all_cons, Bool.and_eq_true]
              exact ⟨by simp [safeChar, h1, h2], ih s' r' hp⟩

/-- Parsing a serialized member recovers the member and leaves the rest of
the input. -/
theorem parseMember_entryStr (k v r : Str) (hk : safeStr k = true) (hv : safeStr v = true) :
    parseMember (entryStr k v ++ r) = some ((k, v), r) := by
  have he : entryStr k v ++ r = '"' :: (k ++ '"' :: ':' :: '"' :: (v ++ '"' :: r)) := by
    simp [entryStr]
  rw [he]
  simp only [parseMember, if_pos rfl]
  rw [parseJString_append k _ hk]
  simp [expectColonQuote, parseJString_append v _ hv]

/-- A successfully parsed member has a safe key and a safe value. -/
theorem parseMember_safe (s : Str) (kv : Str × Str) (r : Str)
    (h : parseMember s = some (kv, r)) :
    safeStr kv.1 = true ∧ safeStr kv.2 = true := by
  cases s with
  | nil => simp [parseMember] at h
  | cons c rest =>
      simp only [parseMember] at h
      by_cases h1 : c = '"'
      · rw [if_pos h1] at h
        cases hp : parseJString rest with
        | none => rw [hp] at h; simp at h
        | some pr1 =>
            rcases pr1 with ⟨k, rest1⟩
            rw [hp] at h
            dsimp only at h
            cases hq : expectColonQuote rest1 with
            | none => rw [hq] at h; simp at h
            | some rest2 =>
                rw [hq] at h
                dsimp only at h
                cases hr2 : parseJString rest2 with
                | none => rw [hr2] at h; simp at h
                | some pr2 =>
                    rcases pr2 with ⟨v, rest3⟩
                    rw [hr2] at h
                    simp only [Option.some.injEq, Prod.mk.injEq] at h
                    rw [← h.1]
                    exact ⟨parseJString_safe rest k rest1 hp,
                      parseJString_safe rest2 v rest3 hr2⟩
      · rw [if_neg h1] at h
        simp at h

/-- Every serialized member occupies at least one character, so the member
count bounds the serialization length. -/
theorem length_le_entriesStr (m : OverrideMap) : m.length ≤ (entriesStr m).length := by
  induction m with
  | nil => simp [entriesStr]
  | cons e rest ih =>
      rcases e with ⟨k, v⟩
      cases rest with
      | nil =>
          simp [entriesStr, entryStr]
      | cons e2 rest2 =>
          have he : entriesStr ((k, v) :: e2 :: rest2)
              = entryStr k v ++ ',' :: entriesStr (e2 :: rest2) := rfl
          rw [he]
          simp only [List.length_cons, List.length_append, entryStr] at ih ⊢
          omega

/-- Parsing the serialized members of a safe map folds them back over the
accumulator, stopping at the closing brace. -/
theorem parseMembers_entriesStr (m : OverrideMap) :
    ∀ (fuel : ℕ) (acc : OverrideMap) (r : Str), m ≠ [] → mapWF m = true →
      m.length ≤ fuel →
      parseMembers fuel acc (entriesStr m ++ '}' :: r) =
        some (m.foldl (fun a e => objSet a e.1 e.2) acc, '}' :: r) := by
  induction m with
  | nil => intro fuel acc r hm; simp at hm
  | cons e rest ih =>
      rcases e with ⟨k, v⟩
      intro fuel acc r _ hwf hfuel
      simp only [mapWF, List.all_cons, Bool.and_eq_true] at hwf
      obtain ⟨⟨hk, hv⟩, hwfrest⟩ := hwf
      obtain ⟨f, rfl⟩ : ∃ f, fuel = f + 1 := ⟨fuel - 1, by simp at hfuel ⊢; omega⟩
      cases rest with
      | nil =>
          have he : entriesStr [(k, v)] ++ '}' :: r = entryStr k v ++ '}' :: r := rfl
          rw [he]
          simp only [parseMembers]
          rw [parseMember_entryStr k v ('}' :: r) hk hv]
          dsimp only
          rw [if_neg (by decide : ¬('}' = ','))]
          simp [List.foldl]
      | cons e2 rest2 =>
          have he : entriesStr ((k, v) :: e2 :: rest2) ++ '}' :: r
              = entryStr k v ++ ',' :: (entriesStr (e2 :: rest2) ++ '}' :: r) := by
            have : entriesStr ((k, v) :: e2 :: rest2)
                = entryStr k v ++ ',' :: entriesStr (e2 :: rest2) := rfl
            rw [this]
            simp
          rw [he]
          simp only [parseMembers]
          rw [parseMember_entryStr k v _ hk hv]
          dsimp only
          rw [if_pos rfl]
          rw [ih f (objSet acc k v) r (by simp) hwfrest (by simp at hfuel ⊢; omega)]
          simp [List.foldl]

/-- A key absent from every entry of a list according to `any`. -/
theorem no_key_of_any_false {l : OverrideMap} {k : Str}
    (h : l.any (fun e => e.1 = k) = false) :
    ∀ e ∈ l, e.1 ≠ k := by
  intro e he hek
  have ht : l.any (fun e => e.1 = k) = true :=
    List.any_eq_true.mpr ⟨e, he, by simp [hek]⟩
  rw [h] at ht
  exact absurd ht (by simp)

/-- Assigning a fresh key appends it. -/
theorem objSet_append_of_no_key (acc : OverrideMap) (k v : Str)
    (h : acc.any (fun a => a.1 = k) = false) :
    objSet acc k v = acc ++ [(k, v)] := by
  induction acc with
  | nil => simp [objSet]
  | cons e rest ih =>
      rcases e with ⟨k', v'⟩
      simp only [List.any_cons, Bool.or_eq_false_iff, decide_eq_false_iff_not] at h
      rw [objSet_cons_miss rest k v k' v' h.1, ih h.2]
      simp

/-- Folding assignments of a unique-keyed map over a disjoint accumulator
just appends the map. -/
theorem foldl_objSet_append (m : OverrideMap) :
    ∀ acc : OverrideMap, keysNodup m = true →
      (∀ e ∈ m, acc.any (fun a => a.1 = e.1) = false) →
      m.foldl (fun a e => objSet a e.1 e.2) acc = acc ++ m := by
  induction m with
  | nil => intro acc _ _; simp
  | cons e rest ih =>
      rcases e with ⟨k, v⟩
      intro acc hnd hdisj
      simp only [keysNodup, Bool.and_eq_true, Bool.not_eq_true'] at hnd
      have hknot : acc.any (fun a => a.1 = k) = false := hdisj (k, v) (by simp)
      have hset : objSet acc k v = acc ++ [(k, v)] := objSet_append_of_no_key acc k v hknot
      rw [List.foldl_cons]
      dsimp only
      rw [hset, ih (acc ++ [(k, v)]) hnd.2 ?_]
      · simp
      · intro e he
        rw [List.any_append]
        have h1 : acc.any (fun a => a.1 = e.1) = false := hdisj e (List.mem_cons_of_mem _ he)
        have h2 : e.1 ≠ k := no_key_of_any_false hnd.1 e he
        rw [h1]
        simp [Ne.symm h2]

/-- The serialization of a nonempty map opens with a quote. -/
theorem entriesStr_head (k v : Str) (rest : OverrideMap) :
    ∃ t, entriesStr ((k, v) :: rest) = '"' :: t := by
  cases rest with
  | nil => exact ⟨_, rfl⟩
  | cons e2 rest2 => exact ⟨_, rfl⟩

/-- Round trip: parsing the serialization of a safe, unique-keyed override
map recovers the map. -/
theorem jsonParse_stringify (m : OverrideMap) (hwf : mapWF m = true)
    (hnd : keysNodup m = true) :
    jsonParseOverrides (jsonStringifyOverrides m) = .ok m := by
  cases m with
  | nil => rfl
  | cons e rest =>
      rcases e with ⟨k, v⟩
      obtain ⟨t, ht⟩ := entriesStr_head k v rest
      have hform : entriesStr ((k, v) :: rest) ++ ['}'] = '"' :: (t ++ ['}']) := by
        rw [ht]
        rfl
      have hj : jsonStringifyOverrides ((k, v) :: rest)
          = '{' :: (entriesStr ((k, v) :: rest) ++ ['}']) := rfl
      rw [hj, hform]
      simp only [jsonParseOverrides]
      rw [if_pos trivial, if_neg (by decide : ¬('"' = '}'))]
      rw [← hform]
      rw [parseMembers_entriesStr ((k, v) :: rest) _ [] [] (by simp) (by rw [hwf])
        (by
          have := length_le_entriesStr ((k, v) :: rest)
          simp only [List.length_append, List.length_cons, List.length_nil] at this ⊢
          omega)]
      dsimp only
      rw [if_pos rfl]
      rw [foldl_objSet_append ((k, v) :: rest) [] hnd (by intro e _; simp)]
      simp

/-- Whatever the member loop returns is a safe, unique-keyed map when the
accumulator was. -/
theorem parseMembers_wf (fuel : ℕ) :
    ∀ (acc : OverrideMap) (s : Str) (m : OverrideMap) (r : Str),
      mapWF acc = true → keysNodup acc = true →
      parseMembers fuel acc s = some (m, r) →
      mapWF m = true ∧ keysNodup m = true := by
  induction fuel with
  | zero => intro acc s m r _ _ h; simp [parseMembers] at h
  | succ f ih =>
      intro acc s m r hwf hnd h
      simp only [parseMembers] at h
      cases hp : parseMember s with
      | none => rw [hp] at h; simp at h
      | some pr =>
          rcases pr with ⟨⟨k, v⟩, rest⟩
          rw [hp] at h
          dsimp only at h
          obtain ⟨hks, hvs⟩ := parseMember_safe s (k, v) rest hp
          have hwf2 : mapWF (objSet acc k v) = true := mapWF_objSet acc k v hwf hks hvs
          have hnd2 : keysNodup (objSet acc k v) = true := keysNodup_objSet acc k v hnd
          cases rest with
          | nil =>
              dsimp only at h
              simp only [Option.some.injEq, Prod.mk.injEq] at h
              rw [← h.1]
              exact ⟨hwf2, hnd2⟩
          | cons c rest2 =>
              dsimp only at h
              by_cases hc : c = ','
              · rw [if_pos hc] at h
                exact ih (objSet acc k v) rest2 m r hwf2 hnd2 h
              · rw [if_neg hc] at h
                simp only [Option.some.injEq, Prod.mk.injEq] at h
                rw [← h.1]
                exact ⟨hwf2, hnd2⟩

/-- Any map the loader successfully returns is safe and unique-keyed. -/
theorem loadManualOverrides_wf (storage : Storage) (m : OverrideMap)
    (h : loadManualOverrides storage = .ok m) :
    mapWF m = true ∧ keysNodup m = true := by
  cases storage with
  | none =>
      simp only [loadManualOverrides, Except.ok.injEq] at h
      rw [← h]
      exact ⟨rfl, rfl⟩
  | some s =>
      simp only [loadManualOverrides] at h
      by_cases hs : s = []
      · rw [if_pos hs] at h
        simp only [Except.ok.injEq] at h
        rw [← h]
        exact ⟨rfl, rfl⟩
      · rw [if_neg hs] at h
        cases s with
        | nil => simp at hs
        | cons c rest =>
            simp only [jsonParseOverrides] at h
            by_cases hc : c = '{'
            · rw [if_pos hc] at h
              cases rest with
              | nil => simp at h
              | cons c2 rest2 =>
                  dsimp only at h
                  by_cases hc2 : c2 = '}'
                  · rw [if_pos hc2] at h
                    by_cases hr : rest2 = []
                    · rw [if_pos hr] at h
                      simp only [Except.ok.injEq] at h
                      rw [← h]
                      exact ⟨rfl, rfl⟩
                    · rw [if_neg hr] at h
                      simp at h
                  · rw [if_neg hc2] at h
                    cases hp : parseMembers (c2 :: rest2).length [] (c2 :: rest2) with
                    | none => rw [hp] at h; simp at h
                    | some pr =>
                        rcases pr with ⟨m2, r2⟩
                        rw [hp] at h
                        dsimp only at h
                        by_cases hr : r2 = ['}']
                        · rw [if_pos hr] at h
                          simp only [Except.ok.injEq] at h
                          rw [← h]
                          exact parseMembers_wf _ [] _ m2 r2 rfl rfl hp
                        · rw [if_neg hr] at h
                          simp at h
            · rw [if_neg hc] at h
              simp at h

/-- Setting a manual result succeeds on a loadable store, and loading the
saved store back yields exactly the updated map. -/
theorem setManual_load (storage : Storage) (id res : Str) (m : OverrideMap)
    (hload : loadManualOverrides storage = .ok m)
    (hid : safeStr id = true) (hres : safeStr res = true) :
    setManual id res storage = .ok (saveManualOverrides (objSet m id res)) ∧
    loadManualOverrides (saveManualOverrides (objSet m id res)) = .ok (objSet m id res) := by
  obtain ⟨hwf, hnd⟩ := loadManualOverrides_wf storage m hload
  constructor
  · simp only [setManual, hload]
    rfl
  · have hne : jsonStringifyOverrides (objSet m id res) ≠ [] := by
      simp [jsonStringifyOverrides]
    simp only [saveManualOverrides, loadManualOverrides]
    rw [if_neg hne]
    exact jsonParse_stringify _ (mapWF_objSet m id res hwf hid hres)
      (keysNodup_objSet m id res hnd)

/-- A word character is never a quote or a backslash. -/
theorem safeChar_of_isWordChar (c : Char) (h : isWordChar c = true) : safeChar c = true := by
  rcases eq_or_ne c '"' with rfl | h1
  · exact absurd h (by decide)
  · rcases eq_or_ne c '\\' with rfl | h2
    · exact absurd h (by decide)
    · simp [safeChar, h1, h2]

/-- A derived bet identifier is a safe JSON string. -/
theorem safeStr_makeBetId (b : HistBet) : safeStr (makeBetId b) = true := by
  have hall := makeBetId_sanitized b
  rw [List.all_eq_true] at hall
  rw [safeStr, List.all_eq_true]
  intro c hc
  exact safeChar_of_isWordChar c (hall c hc)

/-- Claim C5, counterexample: `populateTopPicks` does not degrade to a
placeholder when a record's `market` field is absent — the
`pick.market.toUpperCase()` call raises a `TypeError` that the renderer
propagates. -/
theorem populateTopPicks_throws_on_missing_market :
    populateTopPicks [missingMarketPick] =
      .error "TypeError: toUpperCase is not a function" := by
  rfl

/-- Claim C5 (amended): the numeric formatting/math utilities `toNumber`,
`formatAmericanOdds`, `formatPct` and `formatMoney` do return their
documented fallback (`0` or the em-dash) for `undefined`, any string, and
`NaN` without throwing — but the renderers do not universally degrade:
`populateTopPicks` throws on a record with an absent `market` field (see
the counterexample), and the v2 frontend's `normalizeMarket` is a syntax
error in the source (an unbalanced parenthesis), so it cannot run at
all. -/
theorem format_utilities_fallbacks :
    toNumber .undef = 0 ∧
    toNumber (.vnum .nan) = 0 ∧
    (∀ s, jsNumber (.vstr s) = .nan → toNumber (.vstr s) = 0) ∧
    formatAmericanOdds .undef = emDash ∧
    formatAmericanOdds (.vnum .nan) = emDash ∧
    (∀ s, formatAmericanOdds (.vstr s) = emDash) ∧
    formatPct .undef = emDash ∧
    formatPct (.vnum .nan) = emDash ∧
    (∀ s, formatPct (.vstr s) = emDash) ∧
    formatMoney .undef = emDash ∧
    formatMoney (.vnum .nan) = emDash ∧
    (∀ s, formatMoney (.vstr s) = emDash) := by
  refine ⟨rfl, rfl, ?_, rfl, rfl, fun s => rfl, rfl, rfl, fun s => rfl, rfl, rfl, fun s => rfl⟩
  intro s h
  simp [toNumber, h]

/-- Claim C5, witness: the fallback theorem at the non-numeric string
`"abc"`. -/
theorem format_utilities_fallbacks_witness :
    toNumber (.vstr ("abc".toList)) = 0 ∧
    formatAmericanOdds (.vstr ("abc".toList)) = emDash :=
  ⟨format_utilities_fallbacks.2.2.1 _ rfl,
   format_utilities_fallbacks.2.2.2.2.2.1 _⟩

/-- Claim C6, counterexample: loading a store whose value is not valid
JSON does not return an empty map — the `JSON.parse` exception propagates
out of `loadManualOverrides` (the source has no try/catch). -/
theorem loadManualOverrides_invalid_json_throws :
    loadManualOverrides (some ("not json".toList)) =
      .error "SyntaxError: Unexpected token in JSON" ∧
    loadManualOverrides (some ("not json".toList)) ≠ .ok [] := by
  constructor
  · rfl
  · show (Except.error "SyntaxError: Unexpected token in JSON" : Except String OverrideMap) ≠ .ok []
    exact fun h => Except.noConfusion h

/-- Claim C6 (amended): loading returns the empty map when no value is
stored or the stored value is the (falsy) empty string; but when the
stored value is a nonempty string that is not valid JSON, the `JSON.parse`
exception propagates out of the loader. -/
theorem loadManualOverrides_empty_cases :
    loadManualOverrides none = .ok [] ∧
    loadManualOverrides (some []) = .ok [] ∧
    (∀ s e, s ≠ [] → jsonParseOverrides s = .error e →
      loadManualOverrides (some s) = .error e) := by
  refine ⟨rfl, rfl, ?_⟩
  intro s e hs he
  simp only [loadManualOverrides, if_neg hs]
  exact he

/-- Claim C6, witness: the loader cases applied at the corrupt stored
value `"oops"`. -/
theorem loadManualOverrides_empty_cases_witness :
    loadManualOverrides (some ("oops".toList)) =
      .error "SyntaxError: Unexpected token in JSON" :=
  loadManualOverrides_empty_cases.2.2 _ _ (by decide) rfl

/-- Claim C8: after `setManual(id, "LOSS")` on a loadable store, the row
for that bet renders `LOSS` even though the loaded record's `result` field
still says `WIN`; re-invoking the loader on the untouched storage returns
the map containing the override, and the history record itself is never
modified (rendering only shadows its `result`). -/
theorem manual_override_precedence (storage : Storage) (b : HistBet) (m : OverrideMap)
    (hload : loadManualOverrides storage = .ok m)
    (hbid : b.bet_id = [])
    (hres : b.result = "WIN".toList) :
    ∃ storage',
      setManual (betIdOf b) ("LOSS".toList) storage = .ok storage' ∧
      loadManualOverrides storage' = .ok (objSet m (betIdOf b) ("LOSS".toList)) ∧
      renderHistoryRowResult b (objSet m (betIdOf b) ("LOSS".toList)) = "LOSS".toList ∧
      renderHistoryRowResult b (objSet m (betIdOf b) ("LOSS".toList)) ≠ b.result ∧
      b.result = "WIN".toList := by
  have hsafe : safeStr (betIdOf b) = true := by
    rw [betIdOf, if_pos hbid]
    exact safeStr_makeBetId b
  obtain ⟨hset, hload2⟩ :=
    setManual_load storage (betIdOf b) ("LOSS".toList) m hload hsafe (by decide)
  have hrow : renderHistoryRowResult b (objSet m (betIdOf b) ("LOSS".toList)) = "LOSS".toList := by
    rw [renderHistoryRowResult, objGet_objSet_self]
    dsimp only
    rw [if_neg (by decide : ¬("LOSS".toList = []))]
  refine ⟨_, hset, hload2, hrow, ?_, hres⟩
  rw [hrow, hres]
  decide

/-- Claim C8, witness: the override-precedence theorem on an empty store
and the acceptance-example bet. -/
theorem manual_override_precedence_witness :
    ∃ storage',
      setManual (betIdOf exampleBet) ("LOSS".toList) none = .ok storage' ∧
      loadManualOverrides storage' = .ok (objSet [] (betIdOf exampleBet) ("LOSS".toList)) ∧
      renderHistoryRowResult exampleBet (objSet [] (betIdOf exampleBet) ("LOSS".toList)) =
        "LOSS".toList ∧
      renderHistoryRowResult exampleBet (objSet [] (betIdOf exampleBet) ("LOSS".toList)) ≠
        exampleBet.result ∧
      exampleBet.result = "WIN".toList :=
  manual_override_precedence none exampleBet [] rfl rfl rfl

/-- Claim C10: `setManual` is frame-preserving on the persisted map — the
entry for the written identifier becomes the written result, and the entry
for every other identifier is exactly what it was before; no key is
removed (every previously present key is still present via the second
conjunct). -/
theorem setManual_frame (storage : Storage) (id res : Str) (m : OverrideMap)
    (hload : loadManualOverrides storage = .ok m)
    (hid : safeStr id = true) (hres : safeStr res = true) :
    ∃ storage', setManual id res storage = .ok storage' ∧
      loadManualOverrides storage' = .ok (objSet m id res) ∧
      objGet (objSet m id res) id = some res ∧
      ∀ k, k ≠ id → objGet (objSet m id res) k = objGet m k := by
  obtain ⟨hset, hload2⟩ := setManual_load storage id res m hload hid hres
  exact ⟨_, hset, hload2, objGet_objSet_self m id res,
    fun k hk => objGet_objSet_ne m id res k hk⟩

/-- Claim C10, witness: the frame theorem writing `WIN` under `bet1` into
an empty store. -/
theorem setManual_frame_witness :
    ∃ storage', setManual ['b', 'e', 't', '1'] ['W', 'I', 'N'] none = .ok storage' ∧
      loadManualOverrides storage' = .ok (objSet [] ['b', 'e', 't', '1'] ['W', 'I', 'N']) ∧
      objGet (objSet [] ['b', 'e', 't', '1'] ['W', 'I', 'N']) ['b', 'e', 't', '1'] =
        some ['W', 'I', 'N'] ∧
      ∀ k, k ≠ ['b', 'e', 't', '1'] →
        objGet (objSet [] ['b', 'e', 't', '1'] ['W', 'I', 'N']) k = objGet [] k :=
  setManual_frame none ['b', 'e', 't', '1'] ['W', 'I', 'N'] [] rfl (by decide) (by decide)

end SmartPicks
